import Mathlib

/-!
Byte-shift cipher and string comparison of `src/c/example.c`.

A shallow embedding of the three functions of `example.c`
(`caesarCiphered`, `expectEqualStrings`, `main`) together with the small part
of the C library they call (`malloc`, `strlen`, `printf` with two `%s`).

Conventions of the embedding

* A byte of memory is a `Fin 256`: its object representation.  All arithmetic
  is carried out on `Nat` / `Int` with an explicit `% 256` or `% 2 ^ 32`.
* A `const char *` is the list of the bytes that can be read from the pointer
  onwards.  Reading or writing outside that list is undefined behaviour in C
  and is `none` here.
* The platform decides whether plain `char` is signed; this is the Boolean
  parameter `charSigned`.  `unsigned int` is 32 bits wide and `size_t` is wide
  enough for the length of every object, as on the usual 64-bit platforms.
* An argument passed for an `unsigned int` parameter is a natural number that
  is reduced modulo `2 ^ 32` on entry; an `unsigned char` parameter is a `Byte`.
-/

namespace DiPost

/-- One byte of memory, as its object representation `0 .. 255`. -/
abbrev Byte := Fin 256

/-- The value obtained when an object of type `char` with representation `b`
is read and promoted to `int`: `0 .. 255` when `char` is unsigned,
`-128 .. 127` (two's complement) when it is signed. -/
def charToInt (charSigned : Bool) (b : Byte) : Int :=
  if charSigned && decide (128 ≤ b.val) then (b.val : Int) - 256 else (b.val : Int)

/-- The representation stored when an `int` is assigned to a `char` object:
the value reduced modulo 256 (for a signed `char` this is the wrapping
conversion every two's complement implementation defines). -/
def intToChar (v : Int) : Byte := ⟨(v % 256).toNat, by omega⟩

/-- The value kept when a wider unsigned integer (a `size_t`, or the length a
caller passes) is converted to an `unsigned int` (32 bits wide). -/
def toUnsignedInt (n : Nat) : Nat := n % 2 ^ 32

/-- The part of the process state that `malloc` and reads past a fresh block
depend on. -/
structure Heap where
  /-- The largest request that the allocator can still satisfy. -/
  available : Nat
  /-- The indeterminate initial content of a fresh block, by index. -/
  junk : Nat → Byte
  /-- The bytes that lie in memory directly behind a fresh block. -/
  trailing : List Byte

/-- The C library `malloc`: a block of exactly `size` bytes of indeterminate
content, or `none` for the null pointer when the request cannot be met. -/
def malloc (h : Heap) (size : Nat) : Option (List Byte) :=
  if size ≤ h.available then some ((List.range size).map h.junk) else none

/-- The store `result[i] = v`: undefined outside the block. -/
def writeAt (result : List Byte) (i : Nat) (v : Byte) : Option (List Byte) :=
  if i < result.length then some (result.set i v) else none

/-- The C library `strlen`: the number of bytes before the first zero byte.
Without a zero byte the scan leaves the readable memory, which is undefined. -/
def strlen : List Byte → Option Nat
  | [] => none
  | b :: rest => if b = 0 then some 0 else (strlen rest).map (· + 1)

/-- The bytes that `%s` prints: those before the first zero byte. -/
def cstring (s : List Byte) : List Byte := s.takeWhile (· ≠ 0)

/-- The loop of `caesarCiphered`,
`for (unsigned int i = 0; i < textLength; i++) result[i] = clearText[i] + offset;`
started at counter `i`.  The first argument bounds the number of iterations
still allowed; `textLength - i` always suffices.  The counter never exceeds
`textLength`, so `i++` does not wrap. -/
def caesarLoop (charSigned : Bool) (offset : Byte) (clearText : List Byte)
    (textLength : Nat) : Nat → Nat → List Byte → Option (List Byte)
  | 0, i, result => if i < textLength then none else some result
  | fuel + 1, i, result =>
    if i < textLength then
      match clearText[i]? with
      | none => none
      | some c =>
        match writeAt result i (intToChar (charToInt charSigned c + (offset.val : Int))) with
        | none => none
        | some result1 => caesarLoop charSigned offset clearText textLength fuel (i + 1) result1
    else some result

/-- The function `caesarCiphered(offset, clearText, textLength)`: the block
obtained from `malloc(textLength)` after the loop has run.  The parameter
`textLength` is an `unsigned int`: the length passed by the caller reaches the
body reduced modulo `2 ^ 32` (`len` below).  A null pointer from `malloc` is
not checked, so the first store through it is undefined; with a length of `0`
there is no store and nothing to read. -/
def caesarCiphered (charSigned : Bool) (h : Heap) (offset : Byte)
    (clearText : List Byte) (textLength : Nat) : Option (List Byte) :=
  let len := toUnsignedInt textLength
  match malloc h len with
  | none => if len = 0 then some [] else none
  | some result => caesarLoop charSigned offset clearText len len 0 result

/-- The loop of `expectEqualStrings`,
`for (unsigned int i = 0; i < len; i++) if (expected[i] != actual[i]) return -1;`
followed by `return 0;`.  The result is paired with the number of byte
comparisons carried out so far (`cmps`).  The first argument bounds the
number of iterations still allowed; `len - i` always suffices. -/
def compareLoop (charSigned : Bool) (expected actual : List Byte) (len : Nat) :
    Nat → Nat → Nat → Option (Int × Nat)
  | 0, i, cmps => if i < len then none else some (0, cmps)
  | fuel + 1, i, cmps =>
    if i < len then
      match expected[i]?, actual[i]? with
      | some e, some a =>
        if charToInt charSigned e ≠ charToInt charSigned a then some (-1, cmps + 1)
        else compareLoop charSigned expected actual len fuel (i + 1) (cmps + 1)
      | _, _ => none
    else some (0, cmps)

/-- The function `expectEqualStrings(expected, actual)` with the number of
byte comparisons it carried out: `len` is `strlen(expected)` stored in an
`unsigned int`, and `strlen(actual) != len` is tested before the loop. -/
def expectEqualStringsCounted (charSigned : Bool) (expected actual : List Byte) :
    Option (Int × Nat) :=
  match strlen expected with
  | none => none
  | some n =>
    let len := toUnsignedInt n
    match strlen actual with
    | none => none
    | some m =>
      if m ≠ len then some (-1, 0)
      else compareLoop charSigned expected actual len len 0 0

/-- The function `expectEqualStrings(expected, actual)`: its return value. -/
def expectEqualStrings (charSigned : Bool) (expected actual : List Byte) : Option Int :=
  (expectEqualStringsCounted charSigned expected actual).map Prod.fst

/-- The string literal `"Xtlnqnx%wthpx&"` with its terminating zero byte. -/
def inputLiteral : List Byte :=
  [88, 116, 108, 110, 113, 110, 120, 37, 119, 116, 104, 112, 120, 38, 0]

/-- The string literal `"Sogilis rocks!"` with its terminating zero byte. -/
def expectedLiteral : List Byte :=
  [83, 111, 103, 105, 108, 105, 115, 32, 114, 111, 99, 107, 115, 33, 0]

/-- The output of `printf("Expected '%s', got '%s'\n", expected, actual)`. -/
def printfExpectedGot (expected actual : List Byte) : List Byte :=
  [69, 120, 112, 101, 99, 116, 101, 100, 32, 39] ++ cstring expected ++
    [39, 44, 32, 103, 111, 116, 32, 39] ++ cstring actual ++ [39, 10]

/-- What the process leaves behind: the value returned by `main` and the
bytes written to standard output. -/
structure Exit where
  /-- The value returned by `main`. -/
  status : Int
  /-- The bytes written to standard output. -/
  stdout : List Byte
deriving DecidableEq

/-- The body of `main` with its three literals and the offset as parameters.
The pointer returned by `caesarCiphered` is read as a string, so what is read
is the block followed by the bytes that lie behind it. -/
def driver (charSigned : Bool) (h : Heap) (offset : Byte) (input : List Byte)
    (textLength : Nat) (expected : List Byte) : Option Exit :=
  match caesarCiphered charSigned h offset input textLength with
  | none => none
  | some result =>
    let actual := result ++ h.trailing
    match expectEqualStrings charSigned expected actual with
    | none => none
    | some test =>
      if test ≠ 0 then some ⟨test, printfExpectedGot expected actual⟩
      else some ⟨test, []⟩

/-- The function `main` as written:
`caesarCiphered(251, "Xtlnqnx%wthpx&", 14)` compared with `"Sogilis rocks!"`. -/
def main (charSigned : Bool) (h : Heap) : Option Exit :=
  driver charSigned h 251 inputLiteral 14 expectedLiteral

/-- The byte the specification asks for: `(b + o) mod 256` on unsigned
values. -/
def byteShift (o b : Byte) : Byte := ⟨(b.val + o.val) % 256, Nat.mod_lt _ (by decide)⟩

/-! ## The byte arithmetic -/

lemma intToChar_charToInt_add (charSigned : Bool) (c o : Byte) :
    intToChar (charToInt charSigned c + (o.val : Int)) = byteShift o c := by
  apply Fin.ext
  have hc := c.isLt
  have ho := o.isLt
  cases charSigned <;> simp only [intToChar, charToInt, byteShift, Bool.false_and,
    Bool.true_and, decide_eq_true_eq] <;> split <;> omega

lemma charToInt_injective (charSigned : Bool) (a b : Byte) :
    charToInt charSigned a = charToInt charSigned b ↔ a = b := by
  constructor
  · intro hab
    apply Fin.ext
    have ha := a.isLt
    have hb := b.isLt
    cases charSigned <;> simp only [charToInt, Bool.false_and, Bool.true_and,
      decide_eq_true_eq] at hab <;> (try split at hab) <;> (try split at hab) <;> omega
  · rintro rfl
    rfl

/-! ## The cipher loop -/

lemma writeAt_append_cons (pre ps : List Byte) (p v : Byte) :
    writeAt (pre ++ p :: ps) pre.length v = some (pre ++ v :: ps) := by
  simp [writeAt]

lemma caesarLoop_spec (charSigned : Bool) (o : Byte) (B : List Byte) (N : Nat)
    (hN : N ≤ B.length) :
    ∀ (fuel i : Nat) (pre post : List Byte), pre.length = i → i + post.length = N →
      post.length ≤ fuel →
      caesarLoop charSigned o B N fuel i (pre ++ post)
        = some (pre ++ ((B.drop i).take post.length).map (byteShift o)) := by
  intro fuel
  induction fuel with
  | zero =>
    intro i pre post _ hi hf
    have hpost : post = [] := List.length_eq_zero.mp (Nat.le_zero.mp hf)
    subst hpost
    have : ¬ i < N := by simp at hi; omega
    simp [caesarLoop, this]
  | succ fuel ih =>
    intro i pre post hpre hi hf
    cases post with
    | nil =>
      have : ¬ i < N := by simp at hi; omega
      simp [caesarLoop, this]
    | cons p ps =>
      have hlt : i < N := by simp at hi; omega
      have hB : i < B.length := by omega
      have hget : B[i]? = some B[i] := List.getElem?_eq_getElem hB
      have hdrop : B.drop i = B[i] :: B.drop (i + 1) := List.drop_eq_getElem_cons hB
      have hw := writeAt_append_cons pre ps p
        (intToChar (charToInt charSigned B[i] + (o.val : Int)))
      rw [hpre] at hw
      have hrec := ih (i + 1) (pre ++ [byteShift o B[i]]) ps (by simp [hpre])
        (by simp at hi; omega) (by simp at hf; omega)
      simp only [caesarLoop, hlt, if_true, hget, hw]
      rw [intToChar_charToInt_add]
      rw [List.append_assoc, List.singleton_append] at hrec
      rw [hrec, hdrop]
      simp only [List.length_cons, List.take_succ_cons, List.map_cons, List.append_assoc,
        List.singleton_append]

lemma malloc_length (h : Heap) (N : Nat) (blk : List Byte) (hm : malloc h N = some blk) :
    blk.length = N := by
  unfold malloc at hm
  split at hm
  · cases hm
    simp
  · cases hm

/-- Closed form of `caesarCiphered` for any length passed by the caller: the
first `N mod 2 ^ 32` bytes are ciphered, on a successful allocation and an
input of at least that many bytes. -/
lemma caesarCiphered_eq_mod (charSigned : Bool) (h : Heap) (o : Byte) (B : List Byte)
    (N : Nat) (hN : N % 2 ^ 32 ≤ B.length) (hA : N % 2 ^ 32 ≤ h.available) :
    caesarCiphered charSigned h o B N
      = some ((B.take (N % 2 ^ 32)).map (byteShift o)) := by
  have hm : malloc h (N % 2 ^ 32) = some ((List.range (N % 2 ^ 32)).map h.junk) := by
    simp only [malloc, hA, if_true]
  have hl : ((List.range (N % 2 ^ 32)).map h.junk).length = N % 2 ^ 32 :=
    malloc_length h _ _ hm
  have hs := caesarLoop_spec charSigned o B (N % 2 ^ 32) hN (N % 2 ^ 32) 0 []
    ((List.range (N % 2 ^ 32)).map h.junk) rfl (by omega) (by omega)
  simp only [caesarCiphered, toUnsignedInt, hm]
  rw [List.nil_append, List.nil_append, List.drop_zero, hl] at hs
  exact hs

/-- Closed form of `caesarCiphered` for a length that an `unsigned int` holds,
on a successful allocation and an input of at least `N` bytes. -/
lemma caesarCiphered_eq (charSigned : Bool) (h : Heap) (o : Byte) (B : List Byte)
    (N : Nat) (hN : N ≤ B.length) (hA : N ≤ h.available) (h32 : N < 2 ^ 32) :
    caesarCiphered charSigned h o B N = some ((B.take N).map (byteShift o)) := by
  have hmod : N % 2 ^ 32 = N := Nat.mod_eq_of_lt h32
  have hc := caesarCiphered_eq_mod charSigned h o B N (by omega) (by omega)
  rw [hmod] at hc
  exact hc

lemma byteShift_roundTrip (o b : Byte) :
    byteShift ⟨(256 - o.val) % 256, Nat.mod_lt _ (by decide)⟩ (byteShift o b) = b := by
  apply Fin.ext
  have hb := b.isLt
  have ho := o.isLt
  simp only [byteShift]
  omega

/-! ## Sentinel-terminated sequences -/

lemma strlen_append (xs ys : List Byte) (hxs : (0 : Byte) ∉ xs) :
    strlen (xs ++ ys) = (strlen ys).map (· + xs.length) := by
  induction xs with
  | nil => cases hy : strlen ys <;> simp [hy]
  | cons x xs ih =>
    have hx : x ≠ 0 := fun hx0 => hxs (by simp [hx0])
    have hrest : (0 : Byte) ∉ xs := fun hm => hxs (List.mem_cons_of_mem _ hm)
    rw [List.cons_append, strlen, if_neg hx, ih hrest]
    cases hy : strlen ys <;> simp
    omega

lemma strlen_append_zero (xs rest : List Byte) (hxs : (0 : Byte) ∉ xs) :
    strlen (xs ++ 0 :: rest) = some xs.length := by
  rw [strlen_append xs _ hxs]
  simp [strlen]

lemma strlen_of_mem : ∀ (s : List Byte), (0 : Byte) ∈ s → ∃ n, strlen s = some n
  | [], hs => by simp at hs
  | b :: rest, hs => by
    by_cases hb : b = 0
    · exact ⟨0, by simp [strlen, hb]⟩
    · have hrest : (0 : Byte) ∈ rest := by
        rcases List.mem_cons.mp hs with h0 | h0
        · exact absurd h0.symm hb
        · exact h0
      obtain ⟨n, hn⟩ := strlen_of_mem rest hrest
      exact ⟨n + 1, by simp [strlen, hb, hn]⟩

lemma strlen_decomp : ∀ (s : List Byte) (n : Nat), strlen s = some n →
    ∃ xs rest, s = xs ++ 0 :: rest ∧ xs.length = n ∧ (0 : Byte) ∉ xs
  | [], n, hs => by simp [strlen] at hs
  | b :: rest, n, hs => by
    by_cases hb : b = 0
    · subst hb
      simp [strlen] at hs
      exact ⟨[], rest, by simp, by simp [hs], by simp⟩
    · rw [strlen, if_neg hb] at hs
      cases hr : strlen rest with
      | none => simp [hr] at hs
      | some k =>
        simp [hr] at hs
        obtain ⟨xs, tl, hxs, hlen, hno⟩ := strlen_decomp rest k hr
        refine ⟨b :: xs, tl, by simp [hxs], by simp [hlen, hs], ?_⟩
        intro hm
        rcases List.mem_cons.mp hm with h0 | h0
        · exact hb h0.symm
        · exact hno h0

lemma strlen_lt_length (s : List Byte) (n : Nat) (hs : strlen s = some n) : n < s.length := by
  obtain ⟨xs, rest, rfl, hlen, _⟩ := strlen_decomp s n hs
  simp
  omega

lemma strlen_mem (s : List Byte) (n : Nat) (hs : strlen s = some n) : (0 : Byte) ∈ s := by
  obtain ⟨xs, rest, rfl, _, _⟩ := strlen_decomp s n hs
  simp

lemma cstring_eq_take (s : List Byte) (n : Nat) (hs : strlen s = some n) :
    cstring s = s.take n := by
  obtain ⟨xs, rest, rfl, hlen, hno⟩ := strlen_decomp s n hs
  subst hlen
  unfold cstring
  rw [List.takeWhile_append_of_pos]
  · simp
  · intro b hb
    have : b ≠ 0 := fun h0 => hno (h0 ▸ hb)
    simpa using this

/-! ## The comparison loop -/

lemma compareLoop_fst (charSigned : Bool) (E A : List Byte) (len : Nat)
    (hE : len ≤ E.length) (hA : len ≤ A.length) :
    ∀ (fuel i cmps : Nat), i ≤ len → len - i ≤ fuel →
      (compareLoop charSigned E A len fuel i cmps).map Prod.fst
        = some (if (E.take len).drop i = (A.take len).drop i then 0 else -1) := by
  intro fuel
  induction fuel with
  | zero =>
    intro i cmps hi hf
    have hlen : i = len := by omega
    subst hlen
    have h1 : (E.take i).drop i = [] := List.drop_eq_nil_of_le (by simp)
    have h2 : (A.take i).drop i = [] := List.drop_eq_nil_of_le (by simp)
    simp [compareLoop, h1, h2]
  | succ fuel ih =>
    intro i cmps hi hf
    by_cases hlt : i < len
    · have hEi : i < E.length := by omega
      have hAi : i < A.length := by omega
      have hEt : i < (E.take len).length := by simp; omega
      have hAt : i < (A.take len).length := by simp; omega
      have hdE : (E.take len).drop i = E[i] :: (E.take len).drop (i + 1) := by
        rw [List.drop_eq_getElem_cons hEt]
        simp
      have hdA : (A.take len).drop i = A[i] :: (A.take len).drop (i + 1) := by
        rw [List.drop_eq_getElem_cons hAt]
        simp
      have hrec := ih (i + 1) (cmps + 1) (by omega) (by omega)
      simp only [compareLoop, hlt, if_true, List.getElem?_eq_getElem hEi,
        List.getElem?_eq_getElem hAi, hdE, hdA, List.cons.injEq, ne_eq,
        charToInt_injective]
      by_cases hb : E[i] = A[i]
      · simp only [hb, not_true_eq_false, if_false, true_and]
        exact hrec
      · simp [hb]
    · have hlen : i = len := by omega
      subst hlen
      have h1 : (E.take i).drop i = [] := List.drop_eq_nil_of_le (by simp)
      have h2 : (A.take i).drop i = [] := List.drop_eq_nil_of_le (by simp)
      simp [compareLoop, h1, h2]

/-- Closed form of `expectEqualStringsCounted` on two sentinel-terminated
sequences. -/
lemma expectEqualStrings_eq (charSigned : Bool) (E A : List Byte) (n m : Nat)
    (hE : strlen E = some n) (hA : strlen A = some m) :
    expectEqualStrings charSigned E A
      = some (if m = n % 2 ^ 32 ∧ E.take m = A.take m then 0 else -1) := by
  have hnl := strlen_lt_length E n hE
  have hml := strlen_lt_length A m hA
  have hmod : n % 2 ^ 32 ≤ n := Nat.mod_le _ _
  by_cases hlen : m = n % 2 ^ 32
  · have hloop := compareLoop_fst charSigned E A m (by omega) (by omega) m 0 0
      (by omega) (by omega)
    simp only [expectEqualStrings, expectEqualStringsCounted, hE, hA, toUnsignedInt, ← hlen,
      ne_eq, not_true_eq_false, if_false, true_and]
    simpa using hloop
  · simp only [expectEqualStrings, expectEqualStringsCounted, hE, hA, toUnsignedInt, ne_eq,
      hlen, not_false_eq_true, if_true, false_and, if_false, Option.map_some']

/-- The early return of `expectEqualStrings`: when the length test fails no
byte comparison is carried out. -/
lemma expectEqualStringsCounted_early (charSigned : Bool) (E A : List Byte) (n m : Nat)
    (hE : strlen E = some n) (hA : strlen A = some m) (hlen : m ≠ n % 2 ^ 32) :
    expectEqualStringsCounted charSigned E A = some (-1, 0) := by
  simp only [expectEqualStringsCounted, hE, hA, toUnsignedInt, ne_eq, hlen,
    not_false_eq_true, if_true]

/-- When the truncated length is `0` and `actual` is empty the loop body is
never entered: the result is `0` after no comparison. -/
lemma expectEqualStringsCounted_zero (charSigned : Bool) (E A : List Byte) (n : Nat)
    (hE : strlen E = some n) (hA : strlen A = some 0) (hmod : n % 2 ^ 32 = 0) :
    expectEqualStringsCounted charSigned E A = some (0, 0) := by
  simp only [expectEqualStringsCounted, hE, hA, toUnsignedInt, hmod, ne_eq, not_true_eq_false,
    if_false, compareLoop, Nat.lt_irrefl]

/-- For an expected sequence shorter than `2 ^ 32` bytes the comparison is
exact: the result is `0` when the bytes before the first zero byte agree, and
`-1` otherwise. -/
lemma expectEqualStrings_exact (charSigned : Bool) (E A : List Byte) (n m : Nat)
    (hE : strlen E = some n) (hA : strlen A = some m) (hn : n < 2 ^ 32) :
    expectEqualStrings charSigned E A = some (if cstring E = cstring A then 0 else -1) := by
  rw [expectEqualStrings_eq charSigned E A n m hE hA, cstring_eq_take E n hE,
    cstring_eq_take A m hA, Nat.mod_eq_of_lt hn]
  have hnl := strlen_lt_length E n hE
  have hml := strlen_lt_length A m hA
  by_cases hmn : m = n
  · subst hmn
    simp
  · have hne : E.take n ≠ A.take m := by
      intro heq
      have := congrArg List.length heq
      simp at this
      omega
    simp [hmn, hne]

/-! ## The literal scenario of `main` -/

lemma caesarCiphered_literal (charSigned : Bool) (h : Heap) (hA : 14 ≤ h.available) :
    caesarCiphered charSigned h 251 inputLiteral 14
      = some [83, 111, 103, 105, 108, 105, 115, 32, 114, 111, 99, 107, 115, 33] := by
  have hc := caesarCiphered_eq charSigned h 251 inputLiteral 14 (by decide) hA (by norm_num)
  have hv : (inputLiteral.take 14).map (byteShift 251)
      = [83, 111, 103, 105, 108, 105, 115, 32, 114, 111, 99, 107, 115, 33] := by decide
  rw [hv] at hc
  exact hc

lemma caesarCiphered_mutated (charSigned : Bool) (h : Heap) (hA : 14 ≤ h.available) :
    caesarCiphered charSigned h 250 inputLiteral 14
      = some [82, 110, 102, 104, 107, 104, 114, 31, 113, 110, 98, 106, 114, 32] := by
  have hc := caesarCiphered_eq charSigned h 250 inputLiteral 14 (by decide) hA (by norm_num)
  have hv : (inputLiteral.take 14).map (byteShift 250)
      = [82, 110, 102, 104, 107, 104, 114, 31, 113, 110, 98, 106, 114, 32] := by decide
  rw [hv] at hc
  exact hc

lemma strlen_expectedLiteral : strlen expectedLiteral = some 14 := by decide

lemma strlen_replicate (k : Nat) (rest : List Byte) :
    strlen (List.replicate k (65 : Byte) ++ 0 :: rest) = some k := by
  have hno : (0 : Byte) ∉ List.replicate k (65 : Byte) := by
    intro hm
    have := List.eq_of_mem_replicate hm
    exact absurd this (by decide)
  have := strlen_append_zero (List.replicate k (65 : Byte)) rest hno
  simpa using this

/-! ## The claims about `caesarCiphered` -/

/-- C1: for every offset `o`, every length `N` (a value of the 32-bit
`unsigned int` parameter, so `N < 2 ^ 32`) and every input of at least `N`
bytes, whenever the allocation of `N` bytes succeeds `caesarCiphered` returns a
buffer whose byte at every index `i < N`, read as an unsigned value, is
`(input[i] + o) mod 256` with `input[i]` read as an unsigned value; this holds
for a signed and for an unsigned `char`, and in particular an input byte 255
with offset 2 gives the byte 1. -/
theorem caesarCiphered_bytes (charSigned : Bool) (h : Heap) (o : Byte) (input : List Byte)
    (N : Nat) (hN : N ≤ input.length) (hA : N ≤ h.available) (hN32 : N < 2 ^ 32) :
    ∃ out, caesarCiphered charSigned h o input N = some out ∧
      (∀ i, i < N → ∃ x b, out[i]? = some x ∧ input[i]? = some b ∧
        x.val = (b.val + o.val) % 256) ∧
      (o = 2 → ∀ i, i < N → input[i]? = some 255 → out[i]? = some 1) := by
  refine ⟨(input.take N).map (byteShift o),
    caesarCiphered_eq charSigned h o input N hN hA hN32, ?_, ?_⟩
  · intro i hi
    have hlt : i < input.length := by omega
    refine ⟨byteShift o input[i], input[i], ?_, List.getElem?_eq_getElem hlt, rfl⟩
    simp [List.getElem?_map, List.getElem?_take, hi, List.getElem?_eq_getElem hlt]
  · intro ho i hi hb
    subst ho
    simp only [List.getElem?_map, List.getElem?_take, hi, if_true, hb, Option.map_some']
    rfl

/-- Witness of C1: the one-byte input 255 with offset 2 and a signed `char`. -/
theorem caesarCiphered_bytes_witness :
    ∃ out, caesarCiphered true ⟨1, fun _ => 7, []⟩ 2 [255] 1 = some out ∧
      (∀ i, i < 1 → ∃ x b, out[i]? = some x ∧ ([255] : List Byte)[i]? = some b ∧
        x.val = (b.val + (2 : Byte).val) % 256) ∧
      ((2 : Byte) = 2 → ∀ i, i < 1 → ([255] : List Byte)[i]? = some 255 → out[i]? = some 1) :=
  caesarCiphered_bytes true ⟨1, fun _ => 7, []⟩ 2 [255] 1 (by decide) (by decide) (by decide)

/-- C2: for every offset, every length `N` (a value of the 32-bit
`unsigned int` parameter, so `N < 2 ^ 32`) and every buffer of at least `N`
bytes (in particular of exactly `N` bytes), whenever the allocation succeeds
`caesarCiphered` returns a buffer of exactly `N` bytes, the empty buffer for
`N = 0`; every store stays inside the block of `N` bytes (a store outside it
would make the result `none`), so no terminator is appended. -/
theorem caesarCiphered_length (charSigned : Bool) (h : Heap) (o : Byte) (B : List Byte)
    (N : Nat) (hN : N ≤ B.length) (hA : N ≤ h.available) (hN32 : N < 2 ^ 32) :
    ∃ out, caesarCiphered charSigned h o B N = some out ∧ out.length = N ∧
      (N = 0 → out = []) := by
  refine ⟨(B.take N).map (byteShift o), caesarCiphered_eq charSigned h o B N hN hA hN32,
    ?_, ?_⟩
  · simp [hN]
  · intro h0
    subst h0
    simp

/-- Witness of C2: a three-byte buffer, all of it ciphered. -/
theorem caesarCiphered_length_witness :
    ∃ out, caesarCiphered false ⟨8, fun _ => 0, [9]⟩ 200 [100, 0, 255] 3 = some out ∧
      out.length = 3 ∧ (3 = 0 → out = []) :=
  caesarCiphered_length false ⟨8, fun _ => 0, [9]⟩ 200 [100, 0, 255] 3 (by decide) (by decide)
    (by decide)

/-- C3: round trip.  For every offset `o` and every buffer `B` whose length
`N` is a value of the 32-bit `unsigned int` parameter (`N < 2 ^ 32`), ciphering
`B` with `o` and the result with `(256 - o) mod 256` gives back `B` byte for
byte (both allocations succeeding). -/
theorem caesarCiphered_roundTrip (charSigned : Bool) (h1 h2 : Heap) (o : Byte)
    (B : List Byte) (hA1 : B.length ≤ h1.available) (hA2 : B.length ≤ h2.available)
    (hN32 : B.length < 2 ^ 32) :
    ∃ mid, caesarCiphered charSigned h1 o B B.length = some mid ∧
      caesarCiphered charSigned h2 ⟨(256 - o.val) % 256, Nat.mod_lt _ (by decide)⟩ mid B.length
        = some B := by
  have hid : (byteShift ⟨(256 - o.val) % 256, Nat.mod_lt _ (by decide)⟩ ∘ byteShift o) = id := by
    funext b
    exact byteShift_roundTrip o b
  refine ⟨B.map (byteShift o), ?_, ?_⟩
  · rw [caesarCiphered_eq charSigned h1 o B B.length (le_refl _) hA1 hN32, List.take_length]
  · rw [caesarCiphered_eq charSigned h2 _ _ B.length (by simp) hA2 hN32,
      List.take_of_length_le (by simp), List.map_map, hid, List.map_id]

/-- Witness of C3: offset 251 on the fourteen bytes of `"Sogilis rocks!"`
followed by a zero byte. -/
theorem caesarCiphered_roundTrip_witness :
    ∃ mid, caesarCiphered true ⟨15, fun _ => 0, []⟩ 251 expectedLiteral expectedLiteral.length
        = some mid ∧
      caesarCiphered true ⟨20, fun _ => 1, []⟩
        ⟨(256 - (251 : Byte).val) % 256, Nat.mod_lt _ (by decide)⟩ mid expectedLiteral.length
        = some expectedLiteral :=
  caesarCiphered_roundTrip true ⟨15, fun _ => 0, []⟩ ⟨20, fun _ => 1, []⟩ 251 expectedLiteral
    (by decide) (by decide) (by decide)

/-- C7: `caesarCiphered(251, "Xtlnqnx%wthpx&", 14)` is exactly the fourteen
bytes of `"Sogilis rocks!"`, and on this input offset 251 gives the same bytes
as subtracting 5 from each byte modulo 256. -/
theorem caesarCiphered_sogilis (charSigned : Bool) (h : Heap) (hA : 14 ≤ h.available) :
    caesarCiphered charSigned h 251 inputLiteral 14
        = some [83, 111, 103, 105, 108, 105, 115, 32, 114, 111, 99, 107, 115, 33] ∧
      ∃ out, caesarCiphered charSigned h 251 inputLiteral 14 = some out ∧
        out.map (fun x => (x.val : Int))
          = (inputLiteral.take 14).map (fun b => ((b.val : Int) - 5) % 256) := by
  have hc := caesarCiphered_literal charSigned h hA
  exact ⟨hc, _, hc, by decide⟩

/-- Witness of C7: a heap with exactly fourteen bytes left and a signed `char`. -/
theorem caesarCiphered_sogilis_witness :
    caesarCiphered true ⟨14, fun _ => 7, []⟩ 251 inputLiteral 14
        = some [83, 111, 103, 105, 108, 105, 115, 32, 114, 111, 99, 107, 115, 33] ∧
      ∃ out, caesarCiphered true ⟨14, fun _ => 7, []⟩ 251 inputLiteral 14 = some out ∧
        out.map (fun x => (x.val : Int))
          = (inputLiteral.take 14).map (fun b => ((b.val : Int) - 5) % 256) :=
  caesarCiphered_sogilis true ⟨14, fun _ => 7, []⟩ (by decide)

/-! ## The claims about `expectEqualStrings` -/

/-- C4, evaluated where the code departs from it: `expected` is `2 ^ 32 + 1`
bytes `A` and `actual` is `"A"`.  The lengths differ, yet `len` is truncated to
`1`, the length test passes, one byte is compared and the result is `0`. -/
theorem expectEqualStrings_truncated_equal (charSigned : Bool) :
    strlen (List.replicate (2 ^ 32 + 1) (65 : Byte) ++ [0]) = some (2 ^ 32 + 1) ∧
      strlen ([65, 0] : List Byte) = some 1 ∧
      expectEqualStrings charSigned (List.replicate (2 ^ 32 + 1) (65 : Byte) ++ [0]) [65, 0]
        = some 0 := by
  have hE := strlen_replicate (2 ^ 32 + 1) []
  have hA : strlen ([65, 0] : List Byte) = some 1 := by decide
  refine ⟨hE, hA, ?_⟩
  rw [expectEqualStrings_eq charSigned _ _ _ _ hE hA]
  have hmod : (2 ^ 32 + 1) % 2 ^ 32 = 1 := by norm_num
  have htake : List.take 1 (List.replicate (2 ^ 32 + 1) (65 : Byte) ++ [0])
      = List.take 1 ([65, 0] : List Byte) := by
    rw [List.replicate_succ]
    rfl
  rw [hmod, if_pos ⟨rfl, htake⟩]

/-- C5, evaluated where the code departs from it: `expected` is `2 ^ 32` bytes
`A` and `actual` is the empty string.  The lengths differ, yet `len` is
truncated to `0`, the length test passes and the result is `0` (after no byte
comparison), not `-1`. -/
theorem expectEqualStrings_mismatch_missed (charSigned : Bool) :
    strlen (List.replicate (2 ^ 32) (65 : Byte) ++ [0]) = some (2 ^ 32) ∧
      strlen ([0] : List Byte) = some 0 ∧
      expectEqualStringsCounted charSigned (List.replicate (2 ^ 32) (65 : Byte) ++ [0]) [0]
        = some (0, 0) := by
  have hE := strlen_replicate (2 ^ 32) []
  have hA : strlen ([0] : List Byte) = some 0 := by decide
  refine ⟨hE, hA, ?_⟩
  exact expectEqualStringsCounted_zero charSigned _ _ _ hE hA (by norm_num)

/-- C6, evaluated where the code departs from it: a sequence of `2 ^ 32` bytes
`A` compared with itself.  `len` is truncated to `0`, which differs from
`strlen(actual)`, and the result is `-1`, not `0`. -/
theorem expectEqualStrings_long_self (charSigned : Bool) :
    strlen (List.replicate (2 ^ 32) (65 : Byte) ++ [0]) = some (2 ^ 32) ∧
      expectEqualStrings charSigned (List.replicate (2 ^ 32) (65 : Byte) ++ [0])
        (List.replicate (2 ^ 32) (65 : Byte) ++ [0]) = some (-1) := by
  have hE := strlen_replicate (2 ^ 32) []
  refine ⟨hE, ?_⟩
  rw [expectEqualStrings_eq charSigned _ _ _ _ hE hE]
  have hmod : 2 ^ 32 % 2 ^ 32 = 0 := by norm_num
  have hne : ¬ (2 ^ 32 = 0 ∧
      List.take (2 ^ 32) (List.replicate (2 ^ 32) (65 : Byte) ++ [0])
        = List.take (2 ^ 32) (List.replicate (2 ^ 32) (65 : Byte) ++ [0])) := by
    rintro ⟨h0, _⟩
    norm_num at h0
  rw [hmod, if_neg hne]

/-! ## The claims about the driver -/

/-- C8, evaluated where the code departs from it: the byte behind the block
of fourteen bytes is `A` (then a zero byte).  `caesarCiphered` writes no
terminator, `strlen(actual)` is 15, and `main` returns `-1` after printing
`Expected 'Sogilis rocks!', got 'Sogilis rocks!A'`. -/
theorem main_unterminated (charSigned : Bool) (junk : Nat → Byte) :
    main charSigned ⟨14, junk, [65, 0]⟩
      = some ⟨-1, [69, 120, 112, 101, 99, 116, 101, 100, 32, 39] ++
          [83, 111, 103, 105, 108, 105, 115, 32, 114, 111, 99, 107, 115, 33] ++
          [39, 44, 32, 103, 111, 116, 32, 39] ++
          [83, 111, 103, 105, 108, 105, 115, 32, 114, 111, 99, 107, 115, 33, 65] ++
          [39, 10]⟩ := by
  have hc := caesarCiphered_literal charSigned ⟨14, junk, [65, 0]⟩ (le_refl 14)
  unfold main driver
  rw [hc]
  dsimp only
  cases charSigned <;> decide

/-- C9: mutation scenario.  With offset 250 the fourteen bytes differ from
`"Sogilis rocks!"`: for every sentinel-terminated sequence that starts with the
output of `caesarCiphered(250, "Xtlnqnx%wthpx&", 14)` the comparison with
`"Sogilis rocks!"` returns `-1`, and a driver using offset 250 (in a memory
where the block is followed by a zero byte somewhere) prints the diagnostic and
returns the nonzero status `-1`. -/
theorem mutation_offset_250 (charSigned : Bool) (h : Heap) (hA : 14 ≤ h.available) :
    ∃ out, caesarCiphered charSigned h 250 inputLiteral 14 = some out ∧
      (∀ s : List Byte, s.take 14 = out → (0 : Byte) ∈ s →
        expectEqualStrings charSigned expectedLiteral s = some (-1)) ∧
      ((0 : Byte) ∈ h.trailing →
        driver charSigned h 250 inputLiteral 14 expectedLiteral
            = some ⟨-1, printfExpectedGot expectedLiteral (out ++ h.trailing)⟩ ∧
          printfExpectedGot expectedLiteral (out ++ h.trailing) ≠ []) := by
  have hc := caesarCiphered_mutated charSigned h hA
  have hcmp : ∀ s : List Byte,
      s.take 14 = [82, 110, 102, 104, 107, 104, 114, 31, 113, 110, 98, 106, 114, 32] →
      (0 : Byte) ∈ s → expectEqualStrings charSigned expectedLiteral s = some (-1) := by
    intro s hs h0
    obtain ⟨m, hm⟩ := strlen_of_mem s h0
    rw [expectEqualStrings_eq charSigned _ _ _ _ strlen_expectedLiteral hm]
    have hmod : 14 % 2 ^ 32 = 14 := by norm_num
    have hne : ¬ (m = 14 % 2 ^ 32 ∧ expectedLiteral.take m = s.take m) := by
      rintro ⟨h14, heq⟩
      rw [hmod] at h14
      subst h14
      rw [hs] at heq
      exact absurd heq (by decide)
    rw [if_neg hne]
  refine ⟨_, hc, hcmp, ?_⟩
  intro h0
  have hres := hcmp ([82, 110, 102, 104, 107, 104, 114, 31, 113, 110, 98, 106, 114, 32]
    ++ h.trailing) (by simp) (List.mem_append_right _ h0)
  refine ⟨?_, by simp [printfExpectedGot]⟩
  simp only [driver, hc, hres]
  rfl

/-- Witness of C9: a heap with fourteen bytes left whose next byte is zero. -/
theorem mutation_offset_250_witness :
    ∃ out, caesarCiphered false ⟨14, fun _ => 3, [0]⟩ 250 inputLiteral 14 = some out ∧
      (∀ s : List Byte, s.take 14 = out → (0 : Byte) ∈ s →
        expectEqualStrings false expectedLiteral s = some (-1)) ∧
      ((0 : Byte) ∈ ([0] : List Byte) →
        driver false ⟨14, fun _ => 3, [0]⟩ 250 inputLiteral 14 expectedLiteral
            = some ⟨-1, printfExpectedGot expectedLiteral (out ++ [0])⟩ ∧
          printfExpectedGot expectedLiteral (out ++ [0]) ≠ []) :=
  mutation_offset_250 false ⟨14, fun _ => 3, [0]⟩ (by decide)

/-- What the driver does whenever its run is defined (the length is a value
of the `unsigned int` parameter, the input has at least `N` bytes, the
allocation succeeds, and both strings handed to `expectEqualStrings` contain a
zero byte): the status returned is the value `test` returned by
`expectEqualStrings(expected, actual)`; that value is `0` or `-1`; the
diagnostic line is what is printed when `test` is nonzero and nothing is
printed when it is `0`; and, for an expected string shorter than `2 ^ 32`
bytes, `test` is `0` exactly when the string read through the returned pointer
(the block and the bytes behind it, up to the first zero byte) equals the
expected one. -/
lemma driver_status (charSigned : Bool) (h : Heap) (o : Byte) (input : List Byte) (N : Nat)
    (expected : List Byte) (hN : N ≤ input.length) (hA : N ≤ h.available)
    (hN32 : N < 2 ^ 32) (hE : (0 : Byte) ∈ expected)
    (hT : ∀ out, caesarCiphered charSigned h o input N = some out →
      (0 : Byte) ∈ out ++ h.trailing) :
    ∃ out test printed, caesarCiphered charSigned h o input N = some out ∧
      expectEqualStrings charSigned expected (out ++ h.trailing) = some test ∧
      driver charSigned h o input N expected = some ⟨test, printed⟩ ∧
      (test = 0 ∨ test = -1) ∧
      (test = 0 → printed = []) ∧
      (test ≠ 0 → printed = printfExpectedGot expected (out ++ h.trailing)) ∧
      (printed ≠ [] ↔ test ≠ 0) ∧
      (∀ n, strlen expected = some n → n < 2 ^ 32 →
        (test = 0 ↔ cstring (out ++ h.trailing) = cstring expected)) := by
  have hc := caesarCiphered_eq charSigned h o input N hN hA hN32
  obtain ⟨n, hn⟩ := strlen_of_mem expected hE
  obtain ⟨m, hm⟩ := strlen_of_mem _ (hT _ hc)
  have hres := expectEqualStrings_eq charSigned expected _ n m hn hm
  by_cases hcond : m = n % 2 ^ 32 ∧
      expected.take m = ((input.take N).map (byteShift o) ++ h.trailing).take m
  · rw [if_pos hcond] at hres
    refine ⟨_, 0, [], hc, hres, ?_, Or.inl rfl, fun _ => rfl, fun hne => absurd rfl hne,
      by simp, ?_⟩
    · simp only [driver, hc, hres]
      rfl
    · intro k hk hlt
      have hex := expectEqualStrings_exact charSigned expected _ k m hk hm hlt
      rw [hres] at hex
      by_cases hcs : cstring expected
          = cstring ((input.take N).map (byteShift o) ++ h.trailing)
      · simp [hcs]
      · rw [if_neg hcs] at hex
        exact absurd (Option.some.inj hex) (by decide)
  · rw [if_neg hcond] at hres
    refine ⟨_, -1, printfExpectedGot expected _, hc, hres, ?_, Or.inr rfl,
      fun h0 => absurd h0 (by decide), fun _ => rfl, by simp [printfExpectedGot], ?_⟩
    · simp only [driver, hc, hres]
      rfl
    · intro k hk hlt
      have hex := expectEqualStrings_exact charSigned expected _ k m hk hm hlt
      rw [hres] at hex
      by_cases hcs : cstring expected
          = cstring ((input.take N).map (byteShift o) ++ h.trailing)
      · rw [if_pos hcs] at hex
        exact absurd (Option.some.inj hex) (by decide)
      · constructor
        · intro h0
          exact absurd h0 (by decide)
        · intro heq
          exact absurd heq.symm hcs

/-- C10, evaluated where the code departs from it: the driver of `main` in a
heap where the byte behind the block of fourteen bytes is `A` (then a zero
byte).  The transform output is exactly the fourteen bytes of the expected
literal, yet `expectEqualStrings` returns `-1` on the unterminated buffer, the
status is `-1` and the diagnostic line is printed. -/
theorem driver_match_rejected (charSigned : Bool) (junk : Nat → Byte) :
    caesarCiphered charSigned ⟨14, junk, [65, 0]⟩ 251 inputLiteral 14
        = some (cstring expectedLiteral) ∧
      expectEqualStrings charSigned expectedLiteral (cstring expectedLiteral ++ [65, 0])
        = some (-1) ∧
      driver charSigned ⟨14, junk, [65, 0]⟩ 251 inputLiteral 14 expectedLiteral
        = some ⟨-1, printfExpectedGot expectedLiteral (cstring expectedLiteral ++ [65, 0])⟩ ∧
      printfExpectedGot expectedLiteral (cstring expectedLiteral ++ [65, 0]) ≠ [] := by
  have hc := caesarCiphered_literal charSigned ⟨14, junk, [65, 0]⟩ (le_refl 14)
  have hcs : cstring expectedLiteral
      = [83, 111, 103, 105, 108, 105, 115, 32, 114, 111, 99, 107, 115, 33] := by decide
  have hres : expectEqualStrings charSigned expectedLiteral
      ([83, 111, 103, 105, 108, 105, 115, 32, 114, 111, 99, 107, 115, 33] ++ [65, 0])
        = some (-1) := by
    cases charSigned <;> decide
  rw [hcs]
  refine ⟨hc, hres, ?_, by decide⟩
  simp only [driver, hc, hres]
  rfl

/-! ## Further facts about sentinel-terminated sequences -/

lemma strlen_none : ∀ (s : List Byte), (0 : Byte) ∉ s → strlen s = none
  | [], _ => rfl
  | b :: rest, hs => by
    have hb : b ≠ 0 := fun hb0 => hs (by simp [hb0])
    have hrest : (0 : Byte) ∉ rest := fun hm => hs (List.mem_cons_of_mem _ hm)
    rw [strlen, if_neg hb, strlen_none rest hrest]
    rfl

lemma strlen_getElem (s : List Byte) (m : Nat) (hs : strlen s = some m) : s[m]? = some 0 := by
  obtain ⟨xs, rest, rfl, hlen, _⟩ := strlen_decomp s m hs
  subst hlen
  rw [List.getElem?_append_right (le_refl _)]
  simp

/-- The result is `0` exactly when both sequences are terminated, the length
of `actual` equals the truncated length of `expected`, and the bytes below that
length agree. -/
lemma expectEqualStrings_zero_iff (charSigned : Bool) (E A : List Byte) :
    expectEqualStrings charSigned E A = some 0 ↔
      ∃ n m, strlen E = some n ∧ strlen A = some m ∧ m = n % 2 ^ 32 ∧
        E.take m = A.take m := by
  constructor
  · intro hres
    cases hE : strlen E with
    | none => simp [expectEqualStrings, expectEqualStringsCounted, hE] at hres
    | some n =>
      cases hA : strlen A with
      | none => simp [expectEqualStrings, expectEqualStringsCounted, hE, hA] at hres
      | some m =>
        rw [expectEqualStrings_eq charSigned E A n m hE hA] at hres
        by_cases hcond : m = n % 2 ^ 32 ∧ E.take m = A.take m
        · exact ⟨n, m, rfl, rfl, hcond.1, hcond.2⟩
        · rw [if_neg hcond] at hres
          exact absurd (Option.some.inj hres) (by decide)
  · rintro ⟨n, m, hE, hA, hlen, htake⟩
    rw [expectEqualStrings_eq charSigned E A n m hE hA, if_pos ⟨hlen, htake⟩]

/-- What `main` returns is decided by the comparison alone. -/
lemma driver_eq_zero_iff (charSigned : Bool) (h : Heap) (o : Byte) (input : List Byte)
    (N : Nat) (expected out : List Byte)
    (hc : caesarCiphered charSigned h o input N = some out) :
    driver charSigned h o input N expected = some ⟨0, []⟩ ↔
      expectEqualStrings charSigned expected (out ++ h.trailing) = some 0 := by
  simp only [driver, hc]
  cases hres : expectEqualStrings charSigned expected (out ++ h.trailing) with
  | none => simp
  | some test =>
    by_cases ht : test = 0
    · subst ht
      simp
    · simp only [ne_eq, ht, not_false_eq_true, if_true, Option.some.injEq]
      constructor
      · intro hex
        exact absurd (congrArg Exit.status hex) ht
      · intro h0
        exact h0.elim

/-! ## Termination and the two outcomes -/

/-- C11: for every pair of sentinel-terminated byte sequences
`expectEqualStrings` returns (the loop never runs out of iterations and nothing
undefined is read), its result is `0` or `-1`, and two sequences of length 0
give `0`. -/
theorem expectEqualStrings_total (charSigned : Bool) (X Y : List Byte)
    (hX : (0 : Byte) ∈ X) (hY : (0 : Byte) ∈ Y) :
    ∃ v, expectEqualStrings charSigned X Y = some v ∧ (v = 0 ∨ v = -1) ∧
      (strlen X = some 0 → strlen Y = some 0 → v = 0) := by
  obtain ⟨n, hn⟩ := strlen_of_mem X hX
  obtain ⟨m, hm⟩ := strlen_of_mem Y hY
  have hres := expectEqualStrings_eq charSigned X Y n m hn hm
  by_cases hcond : m = n % 2 ^ 32 ∧ X.take m = Y.take m
  · rw [if_pos hcond] at hres
    exact ⟨0, hres, Or.inl rfl, fun _ _ => rfl⟩
  · rw [if_neg hcond] at hres
    refine ⟨-1, hres, Or.inr rfl, ?_⟩
    intro h0 h1
    rw [hn] at h0
    rw [hm] at h1
    have hn0 : n = 0 := Option.some.inj h0
    have hm0 : m = 0 := Option.some.inj h1
    subst hn0
    subst hm0
    exact absurd ⟨by norm_num, rfl⟩ hcond

/-- Witness of C11: the empty string compared with the empty string, each
followed by further bytes. -/
theorem expectEqualStrings_total_witness :
    ∃ v, expectEqualStrings true [0, 7] [0, 9, 0] = some v ∧ (v = 0 ∨ v = -1) ∧
      (strlen ([0, 7] : List Byte) = some 0 → strlen ([0, 9, 0] : List Byte) = some 0 → v = 0) :=
  expectEqualStrings_total true [0, 7] [0, 9, 0] (by decide) (by decide)

/-! ## The bytes behind the result buffer -/

/-- C12: the bytes behind the block of fourteen bytes decide the outcome.  For
every byte sequence `T` behind the output of
`caesarCiphered(251, "Xtlnqnx%wthpx&", 14)`, the comparison of
`"Sogilis rocks!"` with `output ++ T` returns `0` if and only if the first byte
of `T` is zero; accordingly `main` returns `0` without a diagnostic if and only
if the first byte behind the block is zero. -/
theorem trailing_bytes_decide (charSigned : Bool) (h : Heap) (T : List Byte)
    (hA : 14 ≤ h.available) :
    ∃ out, caesarCiphered charSigned h 251 inputLiteral 14 = some out ∧ out.length = 14 ∧
      (expectEqualStrings charSigned expectedLiteral (out ++ T) = some 0 ↔
        T.head? = some 0) ∧
      (main charSigned h = some ⟨0, []⟩ ↔ h.trailing.head? = some 0) := by
  have hc := caesarCiphered_literal charSigned h hA
  have key : ∀ T : List Byte,
      (expectEqualStrings charSigned expectedLiteral
          ([83, 111, 103, 105, 108, 105, 115, 32, 114, 111, 99, 107, 115, 33] ++ T) = some 0 ↔
        T.head? = some 0) := by
    intro T
    rw [expectEqualStrings_zero_iff]
    constructor
    · rintro ⟨n, m, hn, hm, hlen, _⟩
      rw [strlen_expectedLiteral] at hn
      have hn14 : n = 14 := (Option.some.inj hn).symm
      subst hn14
      have hm14 : m = 14 := by
        rw [hlen]
        norm_num
      subst hm14
      have hget := strlen_getElem _ _ hm
      cases T with
      | nil => simp at hget
      | cons t rest => simpa using hget
    · intro hT
      cases T with
      | nil => simp at hT
      | cons t rest =>
        have ht : t = 0 := by simpa using hT
        subst ht
        refine ⟨14, 14, strlen_expectedLiteral, ?_, by norm_num, ?_⟩
        · exact strlen_append_zero
            [83, 111, 103, 105, 108, 105, 115, 32, 114, 111, 99, 107, 115, 33] rest (by decide)
        · rfl
  refine ⟨_, hc, rfl, key T, ?_⟩
  unfold main
  rw [driver_eq_zero_iff charSigned h 251 inputLiteral 14 expectedLiteral _ hc]
  exact key h.trailing

/-- Witness of C12: a heap with fourteen bytes left, followed by the bytes
`A`, 0. -/
theorem trailing_bytes_decide_witness :
    ∃ out, caesarCiphered true ⟨14, fun _ => 7, [0]⟩ 251 inputLiteral 14 = some out ∧
      out.length = 14 ∧
      (expectEqualStrings true expectedLiteral (out ++ [65, 0]) = some 0 ↔
        ([65, 0] : List Byte).head? = some 0) ∧
      (main true ⟨14, fun _ => 7, [0]⟩ = some ⟨0, []⟩ ↔
        ([0] : List Byte).head? = some 0) :=
  trailing_bytes_decide true ⟨14, fun _ => 7, [0]⟩ [65, 0] (by decide)

/-! ## Bytes behind the terminator, composition of shifts -/

/-- Two buffers with a common beginning of fewer than `2 ^ 32` nonzero bytes
followed by a zero byte compare as equal, whatever follows the zero byte. -/
lemma expectEqualStrings_ignores_tail (charSigned : Bool) (P t1 t2 : List Byte)
    (hP : (0 : Byte) ∉ P) (hlen : P.length < 2 ^ 32) :
    expectEqualStrings charSigned (P ++ 0 :: t1) (P ++ 0 :: t2) = some 0 := by
  rw [expectEqualStrings_zero_iff]
  refine ⟨P.length, P.length, strlen_append_zero P t1 hP, strlen_append_zero P t2 hP,
    (Nat.mod_eq_of_lt hlen).symm, ?_⟩
  rw [List.take_left, List.take_left]

/-- Two distinct inputs of equal length whose ciphered outputs, each followed
by a terminator, compare as equal: offset 1 maps the first byte 255 to zero,
and the inputs differ only behind it. -/
lemma caesarCiphered_collision (charSigned : Bool) (h1 h2 : Heap)
    (hA1 : 2 ≤ h1.available) (hA2 : 2 ≤ h2.available) :
    ∃ out1 out2, caesarCiphered charSigned h1 1 [255, 1] 2 = some out1 ∧
      caesarCiphered charSigned h2 1 [255, 2] 2 = some out2 ∧ out1 ≠ out2 ∧
      expectEqualStrings charSigned (out1 ++ [0]) (out2 ++ [0]) = some 0 := by
  have hc1 := caesarCiphered_eq charSigned h1 1 [255, 1] 2 (by decide) hA1 (by norm_num)
  have hc2 := caesarCiphered_eq charSigned h2 1 [255, 2] 2 (by decide) hA2 (by norm_num)
  have hv1 : (([255, 1] : List Byte).take 2).map (byteShift 1) = [0, 2] := by decide
  have hv2 : (([255, 2] : List Byte).take 2).map (byteShift 1) = [0, 3] := by decide
  rw [hv1] at hc1
  rw [hv2] at hc2
  exact ⟨_, _, hc1, hc2, by decide,
    expectEqualStrings_ignores_tail charSigned [] [2, 0] [3, 0] (by simp) (by norm_num)⟩

/-- C13, evaluated where the code departs from it: two buffers that agree on
`2 ^ 32` bytes `A` and the zero byte behind them, and differ in the byte after
it.  `len` is truncated to `0`, which differs from `strlen(actual)`, and the
result is `-1`, not `0`. -/
theorem expectEqualStrings_long_common_start (charSigned : Bool) :
    strlen (List.replicate (2 ^ 32) (65 : Byte) ++ [0, 1]) = some (2 ^ 32) ∧
      strlen (List.replicate (2 ^ 32) (65 : Byte) ++ [0, 2]) = some (2 ^ 32) ∧
      expectEqualStrings charSigned (List.replicate (2 ^ 32) (65 : Byte) ++ [0, 1])
        (List.replicate (2 ^ 32) (65 : Byte) ++ [0, 2]) = some (-1) := by
  have hE := strlen_replicate (2 ^ 32) [1]
  have hA := strlen_replicate (2 ^ 32) [2]
  refine ⟨hE, hA, ?_⟩
  rw [expectEqualStrings_eq charSigned _ _ _ _ hE hA]
  have hmod : 2 ^ 32 % 2 ^ 32 = 0 := by norm_num
  have hne : ¬ (2 ^ 32 = 0 ∧
      List.take (2 ^ 32) (List.replicate (2 ^ 32) (65 : Byte) ++ [0, 1])
        = List.take (2 ^ 32) (List.replicate (2 ^ 32) (65 : Byte) ++ [0, 2])) := by
    rintro ⟨h0, _⟩
    norm_num at h0
  rw [hmod, if_neg hne]

/-- C14: shifts compose additively.  For all offsets `a`, `b` and every buffer
`B` whose length `N` is a value of the 32-bit `unsigned int` parameter
(`N < 2 ^ 32`), ciphering with `a` and then with `b` gives the same buffer as
ciphering once with `(a + b) mod 256`; offset 0 gives back `B`; and the order
of the two shifts does not matter.  Every call runs in a heap of its own
(`heaps k` for the `k`-th call) in which the allocation succeeds. -/
theorem caesarCiphered_compose (charSigned : Bool) (heaps : Nat → Heap) (a b : Byte)
    (B : List Byte) (hA : ∀ k, B.length ≤ (heaps k).available) (hN32 : B.length < 2 ^ 32) :
    ∃ ma mb r, caesarCiphered charSigned (heaps 0) a B B.length = some ma ∧
      caesarCiphered charSigned (heaps 1) b ma B.length = some r ∧
      caesarCiphered charSigned (heaps 2) ⟨(a.val + b.val) % 256, Nat.mod_lt _ (by decide)⟩
        B B.length = some r ∧
      caesarCiphered charSigned (heaps 3) 0 B B.length = some B ∧
      caesarCiphered charSigned (heaps 4) b B B.length = some mb ∧
      caesarCiphered charSigned (heaps 5) a mb B.length = some r := by
  have hab : ∀ x : Byte, byteShift b (byteShift a x)
      = byteShift ⟨(a.val + b.val) % 256, Nat.mod_lt _ (by decide)⟩ x := by
    intro x
    apply Fin.ext
    simp only [byteShift]
    omega
  have hba : ∀ x : Byte, byteShift a (byteShift b x)
      = byteShift ⟨(a.val + b.val) % 256, Nat.mod_lt _ (by decide)⟩ x := by
    intro x
    apply Fin.ext
    simp only [byteShift]
    omega
  have h0 : ∀ x : Byte, byteShift 0 x = x := by
    intro x
    apply Fin.ext
    have hx := x.isLt
    simp only [byteShift, Fin.val_zero, Nat.add_zero]
    omega
  refine ⟨B.map (byteShift a), B.map (byteShift b),
    B.map (byteShift ⟨(a.val + b.val) % 256, Nat.mod_lt _ (by decide)⟩), ?_, ?_, ?_, ?_, ?_, ?_⟩
  · rw [caesarCiphered_eq charSigned _ a B B.length (le_refl _) (hA 0) hN32, List.take_length]
  · rw [caesarCiphered_eq charSigned _ b _ B.length (by simp) (hA 1) hN32,
      List.take_of_length_le (by simp), List.map_map]
    exact congrArg some (List.map_congr_left (fun x _ => hab x))
  · rw [caesarCiphered_eq charSigned _ _ B B.length (le_refl _) (hA 2) hN32, List.take_length]
  · rw [caesarCiphered_eq charSigned _ 0 B B.length (le_refl _) (hA 3) hN32, List.take_length]
    exact congrArg some ((List.map_congr_left (fun x _ => h0 x)).trans (List.map_id B))
  · rw [caesarCiphered_eq charSigned _ b B B.length (le_refl _) (hA 4) hN32, List.take_length]
  · rw [caesarCiphered_eq charSigned _ a _ B.length (by simp) (hA 5) hN32,
      List.take_of_length_le (by simp), List.map_map]
    exact congrArg some (List.map_congr_left (fun x _ => hba x))

/-- Witness of C14: offsets 200 and 100 on the bytes of `"Sogilis rocks!"`
followed by a zero byte. -/
theorem caesarCiphered_compose_witness :
    ∃ ma mb r, caesarCiphered true ((fun _ => ⟨15, fun _ => 7, []⟩) 0) 200 expectedLiteral
        expectedLiteral.length = some ma ∧
      caesarCiphered true ((fun _ => ⟨15, fun _ => 7, []⟩) 1) 100 ma expectedLiteral.length
        = some r ∧
      caesarCiphered true ((fun _ => ⟨15, fun _ => 7, []⟩) 2)
        ⟨((200 : Byte).val + (100 : Byte).val) % 256, Nat.mod_lt _ (by decide)⟩
        expectedLiteral expectedLiteral.length = some r ∧
      caesarCiphered true ((fun _ => ⟨15, fun _ => 7, []⟩) 3) 0 expectedLiteral
        expectedLiteral.length = some expectedLiteral ∧
      caesarCiphered true ((fun _ => ⟨15, fun _ => 7, []⟩) 4) 100 expectedLiteral
        expectedLiteral.length = some mb ∧
      caesarCiphered true ((fun _ => ⟨15, fun _ => 7, []⟩) 5) 200 mb expectedLiteral.length
        = some r :=
  caesarCiphered_compose true (fun _ => ⟨15, fun _ => 7, []⟩) 200 100 expectedLiteral
    (fun _ => Nat.le_refl 15) (by decide)

/-! ## Symmetry and the truncated length -/

/-- For two sequences shorter than `2 ^ 32` bytes the order of the arguments
does not matter. -/
lemma expectEqualStrings_symm_bounded (charSigned : Bool) (X Y : List Byte) (n m : Nat)
    (hX : strlen X = some n) (hY : strlen Y = some m) (hn : n < 2 ^ 32) (hm : m < 2 ^ 32) :
    expectEqualStrings charSigned X Y = expectEqualStrings charSigned Y X := by
  rw [expectEqualStrings_exact charSigned X Y n m hX hY hn,
    expectEqualStrings_exact charSigned Y X m n hY hX hm]
  by_cases hc : cstring X = cstring Y
  · rw [if_pos hc, if_pos hc.symm]
  · rw [if_neg hc, if_neg (fun hc2 => hc hc2.symm)]

/-- An expected sequence of `r.length + k` bytes, with `r.length` a multiple of
`2 ^ 32`, compares as equal to its first `k < 2 ^ 32` bytes. -/
lemma expectEqualStrings_truncated_pair (charSigned : Bool) (xs r : List Byte)
    (hxs : (0 : Byte) ∉ xs) (hr : (0 : Byte) ∉ r) (hlen : r.length % 2 ^ 32 = 0)
    (hk : xs.length < 2 ^ 32) :
    strlen (xs ++ r ++ [0]) = some (r.length + xs.length) ∧
      strlen (xs ++ [0]) = some xs.length ∧
      expectEqualStrings charSigned (xs ++ r ++ [0]) (xs ++ [0]) = some 0 := by
  have hno : (0 : Byte) ∉ xs ++ r := by
    intro hmem
    rcases List.mem_append.mp hmem with h1 | h1
    · exact hxs h1
    · exact hr h1
  have hE : strlen (xs ++ r ++ [0]) = some (r.length + xs.length) := by
    rw [strlen_append_zero (xs ++ r) [] hno, List.length_append, Nat.add_comm]
  have hA : strlen (xs ++ [0]) = some xs.length := strlen_append_zero xs [] hxs
  refine ⟨hE, hA, ?_⟩
  rw [expectEqualStrings_zero_iff]
  refine ⟨_, _, hE, hA, ?_, ?_⟩
  · rw [Nat.add_mod, hlen, Nat.zero_add, Nat.mod_mod, Nat.mod_eq_of_lt hk]
  · rw [List.append_assoc, List.take_left, List.take_left]

/-- C15, evaluated where the code departs from it: `X` is `2 ^ 32` bytes `A`
and `Y` is the empty string.  With `X` as `expected` the truncated `len` is
`0` and the result is `0`; with `Y` as `expected` the length test compares
`2 ^ 32` with `0` and the result is `-1`. -/
theorem expectEqualStrings_not_symmetric (charSigned : Bool) :
    expectEqualStrings charSigned (List.replicate (2 ^ 32) (65 : Byte) ++ [0]) [0] = some 0 ∧
      expectEqualStrings charSigned [0] (List.replicate (2 ^ 32) (65 : Byte) ++ [0])
        = some (-1) := by
  have hX := strlen_replicate (2 ^ 32) []
  have hY : strlen ([0] : List Byte) = some 0 := by decide
  constructor
  · rw [expectEqualStrings_zero_iff]
    exact ⟨_, _, hX, hY, by norm_num, rfl⟩
  · rw [expectEqualStrings_eq charSigned _ _ _ _ hY hX]
    have hne : ¬ (2 ^ 32 = 0 % 2 ^ 32 ∧
        List.take (2 ^ 32) ([0] : List Byte)
          = List.take (2 ^ 32) (List.replicate (2 ^ 32) (65 : Byte) ++ [0])) := by
      rintro ⟨h0, _⟩
      norm_num at h0
    rw [if_neg hne]

/-- C16: `len` is `strlen(expected)` reduced modulo `2 ^ 32`, while
`strlen(actual)` is compared unreduced.  For terminated sequences of lengths
`n` and `m`: when `m` differs from `n mod 2 ^ 32` the function returns `-1`
before any comparison, otherwise it runs the loop over `m` bytes; so the result
is `0` exactly when `m = n mod 2 ^ 32` and the first `m` bytes agree.  Hence an
expected sequence of `2 ^ 32 + k` bytes (a length that fits 64 bits) and an
actual one made of its first `k < 2 ^ 32` bytes, for instance `k = 0`, have
different lengths and give `0`.  For `n < 2 ^ 32` the length test is exact. -/
theorem expectEqualStrings_length_test (charSigned : Bool) (E A : List Byte) (n m : Nat)
    (hE : strlen E = some n) (hA : strlen A = some m) :
    (m ≠ n % 2 ^ 32 → expectEqualStringsCounted charSigned E A = some (-1, 0)) ∧
      (m = n % 2 ^ 32 →
        expectEqualStringsCounted charSigned E A = compareLoop charSigned E A m m 0 0) ∧
      (expectEqualStrings charSigned E A = some 0 ↔
        m = n % 2 ^ 32 ∧ E.take m = A.take m) ∧
      (n < 2 ^ 32 → (m = n % 2 ^ 32 ↔ m = n)) ∧
      (∀ xs : List Byte, (0 : Byte) ∉ xs → xs.length < 2 ^ 32 →
        strlen (xs ++ List.replicate (2 ^ 32) (65 : Byte) ++ [0]) = some (2 ^ 32 + xs.length) ∧
        strlen (xs ++ [0]) = some xs.length ∧
        2 ^ 32 + xs.length ≠ xs.length ∧ 2 ^ 32 + xs.length < 2 ^ 64 ∧
        expectEqualStrings charSigned (xs ++ List.replicate (2 ^ 32) (65 : Byte) ++ [0])
          (xs ++ [0]) = some 0) ∧
      expectEqualStrings charSigned (List.replicate (2 ^ 32) (65 : Byte) ++ [0]) [0]
        = some 0 := by
  refine ⟨expectEqualStringsCounted_early charSigned E A n m hE hA, ?_, ?_, ?_, ?_, ?_⟩
  · intro hlen
    simp only [expectEqualStringsCounted, hE, hA, toUnsignedInt, ← hlen, ne_eq,
      not_true_eq_false, if_false]
  · rw [expectEqualStrings_eq charSigned E A n m hE hA]
    by_cases hcond : m = n % 2 ^ 32 ∧ E.take m = A.take m
    · rw [if_pos hcond]
      exact ⟨fun _ => hcond, fun _ => rfl⟩
    · rw [if_neg hcond]
      exact ⟨fun hbad => absurd (Option.some.inj hbad) (by decide), fun hc => absurd hc hcond⟩
  · intro hn
    rw [Nat.mod_eq_of_lt hn]
  · intro xs hxs hk
    have hr : (0 : Byte) ∉ List.replicate (2 ^ 32) (65 : Byte) := by
      intro hm
      exact absurd (List.eq_of_mem_replicate hm) (by decide)
    have hp := expectEqualStrings_truncated_pair charSigned xs
      (List.replicate (2 ^ 32) (65 : Byte)) hxs hr
      (by rw [List.length_replicate]; norm_num) hk
    rw [List.length_replicate] at hp
    exact ⟨hp.1, hp.2.1, by omega, by omega, hp.2.2⟩
  · have hY : strlen ([0] : List Byte) = some 0 := by decide
    rw [expectEqualStrings_zero_iff]
    exact ⟨_, _, strlen_replicate (2 ^ 32) [], hY, by norm_num, rfl⟩

/-- Witness of C16: an expected sequence of `2 ^ 32 + 1` bytes `A` against the
actual sequence `"A"`. -/
theorem expectEqualStrings_length_test_witness :
    strlen (List.replicate (2 ^ 32 + 1) (65 : Byte) ++ [0]) = some (2 ^ 32 + 1) ∧
      strlen ([65, 0] : List Byte) = some 1 ∧
      (expectEqualStrings true (List.replicate (2 ^ 32 + 1) (65 : Byte) ++ [0]) [65, 0] = some 0 ↔
        1 = (2 ^ 32 + 1) % 2 ^ 32 ∧
          List.take 1 (List.replicate (2 ^ 32 + 1) (65 : Byte) ++ [0])
            = List.take 1 ([65, 0] : List Byte)) :=
  ⟨strlen_replicate (2 ^ 32 + 1) [], by decide,
    (expectEqualStrings_length_test true (List.replicate (2 ^ 32 + 1) (65 : Byte) ++ [0])
      [65, 0] (2 ^ 32 + 1) 1 (strlen_replicate (2 ^ 32 + 1) []) (by decide)).2.2.1⟩

end DiPost
